import Mathlib

/-!
Verification of the MolSAIC coordinate/supercell core (`usm.ops.lattice`,
`usm.ops.transform`, `usm.ops.replicate`, `usm.ops.topology`).

The `usm` package itself is not shipped in this tree (only its unit and
integration tests are), so every operation below is modelled from the
specification document, faithful to its stated conventions.  Floating-point
doubles are modelled as exact real numbers; the numerical tolerances of the
code appear as explicit constants.
-/

namespace USMCore

/-- Modelled from the spec: the numerical tolerance used by the validity
checks of `lattice_matrix` and `lattice_inverse` (the spec speaks of values
"within numerical tolerance of zero"). -/
noncomputable def EPS : ℝ := 1e-12

/-- Modelled from the spec: the round-trip tolerance of the transform
contract (`1e-12` absolute, in double precision). -/
noncomputable def RT_TOL : ℝ := 1e-12

/-- Degrees to radians, as the spec's convention "angles converted to
radians". -/
noncomputable def deg2rad (d : ℝ) : ℝ := d * (Real.pi / 180)

/-- Error taxonomy of the spec: `InvalidCellError`, `SingularMatrixError`,
and invalid-argument errors for malformed preconditions. -/
inductive USMError where
  | invalidCell
  | singularMatrix
  | invalidArgument
  deriving DecidableEq

abbrev Mat3 := Matrix (Fin 3) (Fin 3) ℝ
abbrev Vec3 := Fin 3 → ℝ

/-- Modelled from the spec: the `cx` component of the third lattice vector,
`cx = c * cos(beta)`. -/
noncomputable def latticeCx (c be : ℝ) : ℝ := c * Real.cos (deg2rad be)

/-- Modelled from the spec: the `cy` component of the third lattice vector,
`cy = c * (cos(alpha) - cos(beta) * cos(gamma)) / sin(gamma)`. -/
noncomputable def latticeCy (c al be ga : ℝ) : ℝ :=
  c * (Real.cos (deg2rad al) - Real.cos (deg2rad be) * Real.cos (deg2rad ga)) /
    Real.sin (deg2rad ga)

/-- Modelled from the spec: `cz^2 = c^2 - cx^2 - cy^2`. -/
noncomputable def latticeCz2 (c al be ga : ℝ) : ℝ :=
  c ^ 2 - latticeCx c be ^ 2 - latticeCy c al be ga ^ 2

/-- Modelled from the spec: `lattice_matrix(a, b, c, alpha, beta, gamma)`
(missing source `usm/ops/lattice.py`).  Builds the row-wise lattice matrix
under the fixed convention `ax=a, ay=az=0; bx=b cos γ, by=b sin γ, bz=0;
cx, cy, cz` and fails with `InvalidCellError` when a length is non-positive,
`sin γ` is within tolerance of zero, or the implied `cz²` is negative beyond
tolerance. -/
noncomputable def lattice_matrix (a b c al be ga : ℝ) : Except USMError Mat3 :=
  if a ≤ 0 ∨ b ≤ 0 ∨ c ≤ 0 then .error .invalidCell
  else if |Real.sin (deg2rad ga)| ≤ EPS then .error .invalidCell
  else if latticeCz2 c al be ga < -EPS then .error .invalidCell
  else .ok !![a, 0, 0;
              b * Real.cos (deg2rad ga), b * Real.sin (deg2rad ga), 0;
              latticeCx c be, latticeCy c al be ga, Real.sqrt (latticeCz2 c al be ga)]

/-- Modelled from the spec: `lattice_inverse(matrix)` (missing source
`usm/ops/lattice.py`).  Fails with `SingularMatrixError` when the determinant
is within numerical tolerance of zero; otherwise returns the 3×3 inverse. -/
noncomputable def lattice_inverse (M : Mat3) : Except USMError Mat3 :=
  if |M.det| ≤ EPS then .error .singularMatrix else .ok M⁻¹

/-- Modelled from the spec: the two calling forms of the batch transforms —
a single 3-component coordinate, or a batch of N coordinates (an N×3
array). -/
inductive Coords where
  | single (v : Vec3)
  | batch (l : List Vec3)

/-- The "shape" of a coordinate argument, in the numpy sense: `[3]` for a
single vector, `[N, 3]` for a batch. -/
def cshape : Coords → List ℕ
  | .single _ => [3]
  | .batch l => [l.length, 3]

/-- Modelled from the spec: `frac_to_xyz(matrix, frac)`; rows of the matrix
are the lattice vectors, so a fractional row-vector maps through `vecMul`. -/
noncomputable def frac_to_xyz (A : Mat3) : Coords → Coords
  | .single v => .single (Matrix.vecMul v A)
  | .batch l => .batch (l.map (fun v => Matrix.vecMul v A))

/-- Modelled from the spec: `xyz_to_frac(inverse_matrix, cart)`. -/
noncomputable def xyz_to_frac (Ainv : Mat3) : Coords → Coords
  | .single v => .single (Matrix.vecMul v Ainv)
  | .batch l => .batch (l.map (fun v => Matrix.vecMul v Ainv))

/-- Componentwise closeness of two coordinate values of the same shape,
within an absolute tolerance. -/
def coordsClose (tol : ℝ) : Coords → Coords → Prop
  | .single x, .single y => ∀ i, |x i - y i| ≤ tol
  | .batch l, .batch m =>
      l.length = m.length ∧
        ∀ (i : ℕ) (h1 : i < l.length) (h2 : i < m.length) (j : Fin 3),
          |(l.get ⟨i, h1⟩) j - (m.get ⟨i, h2⟩) j| ≤ tol
  | _, _ => False

/-- Modelled from the spec: `CellParameters` — lengths, angles in degrees,
a periodicity flag, plus pass-through metadata (the tests carry a
`spacegroup` string). -/
structure Cell where
  a : ℝ
  b : ℝ
  c : ℝ
  alpha : ℝ
  beta : ℝ
  gamma : ℝ
  pbc : Bool
  spacegroup : String
  deriving Inhabited

/-- Modelled from the spec: an atom — unique integer identity, Cartesian
position, opaque name/element labels, optional image-index annotation. -/
structure Atom where
  aid : ℕ
  name : String
  element : String
  x : ℝ
  y : ℝ
  z : ℝ
  image : Option (ℤ × ℤ × ℤ)
  deriving Inhabited

/-- Modelled from the spec: a bond — two atom identities, an opaque
bond-order value, and an optional periodic image offset triple. -/
structure Bond where
  a1 : ℕ
  a2 : ℕ
  order : ℝ
  image : Option (ℤ × ℤ × ℤ)
  deriving Inhabited

/-- Modelled from the spec: the structure abstraction (atom table, bond
table, cell) that the core consumes and produces. -/
structure USM where
  atoms : List Atom
  bonds : List Bond
  cell : Cell
  deriving Inhabited

/-- Run `lattice_matrix` on a structure's own cell parameters. -/
noncomputable def cellMatrix (s : USM) : Except USMError Mat3 :=
  lattice_matrix s.cell.a s.cell.b s.cell.c s.cell.alpha s.cell.beta s.cell.gamma

/-- The canonical unordered endpoint key of a bond. -/
def bondKey (b : Bond) : ℕ × ℕ := (min b.a1 b.a2, max b.a1 b.a2)

/-- The ordered endpoint pair of a bond as it is stored. -/
def bondPair (b : Bond) : ℕ × ℕ := (b.a1, b.a2)

/-- A bond table is well formed when every endpoint identity occurs in the
atom table and no bond is a self-loop. -/
def bondsWellFormed (s : USM) : Bool :=
  s.bonds.all fun b =>
    (s.atoms.any fun a0 => a0.aid == b.a1) &&
    (s.atoms.any fun a0 => a0.aid == b.a2) &&
    (b.a1 != b.a2)

/-- Position of the atom with a given identity in the atom table. -/
def aidIndex (s : USM) (x : ℕ) : ℕ := s.atoms.findIdx fun a0 => a0.aid == x

/-- The row-major enumeration of the na×nb×nc tile triples (i,j,k). -/
def tileTriples (na nb nc : ℕ) : List (ℕ × ℕ × ℕ) :=
  (List.range na).flatMap fun i =>
    (List.range nb).flatMap fun j =>
      (List.range nc).map fun k => (i, j, k)

def fillChar : Char := ('x')

def sepChar : Char := ('_')

/-- Modelled from the spec: the deterministic renaming convention for
replicated atoms (the spec leaves the exact scheme open beyond "globally
unique"; here the base name is qualified by the atom's new identity,
encoded as a prefix). -/
def tiledName (n : ℕ) (base : String) : String :=
  ⟨List.replicate n fillChar ++ sepChar :: base.data⟩

/-- One replicated copy of a base atom: tile linear index `t`, tile triple
`trip`, base position `p`, translated by `i·a_vec + j·b_vec + k·c_vec`. -/
noncomputable def mkTiledAtom (A : Mat3) (t : ℕ) (trip : ℕ × ℕ × ℕ) (p : ℕ)
    (atm : Atom) (nAtoms : ℕ) (flag : Bool) : Atom :=
  let shift : Vec3 :=
    (trip.1 : ℝ) • A 0 + (trip.2.1 : ℝ) • A 1 + (trip.2.2 : ℝ) • A 2
  { aid := t * nAtoms + p
    name := tiledName (t * nAtoms + p) atm.name
    element := atm.element
    x := atm.x + shift 0
    y := atm.y + shift 1
    z := atm.z + shift 2
    image := if flag then some ((trip.1 : ℤ), (trip.2.1 : ℤ), (trip.2.2 : ℤ)) else none }

/-- One replicated copy of a base bond in tile `t`: both endpoints remapped
to that tile's atom identities, endpoint order canonicalized. -/
def remapBond (s : USM) (t nAtoms : ℕ) (b : Bond) : Bond :=
  let u := t * nAtoms + aidIndex s b.a1
  let v := t * nAtoms + aidIndex s b.a2
  { a1 := min u v, a2 := max u v, order := b.order, image := b.image }

/-- Modelled from the spec: the "safety net" deduplication of the replicated
bond list by canonical endpoint pair. -/
def dedupBonds (l : List Bond) : List Bond :=
  l.pwFilter fun b b2 => bondPair b ≠ bondPair b2

/-- The full replicated atom list: one copy of every base atom per tile. -/
noncomputable def tiledAtoms (s : USM) (na nb nc : ℕ) (flag : Bool) (A : Mat3) :
    List Atom :=
  (tileTriples na nb nc).enum.flatMap fun ti =>
    s.atoms.enum.map fun pa => mkTiledAtom A ti.1 ti.2 pa.1 pa.2 s.atoms.length flag

/-- The full replicated bond list (before the dedup safety net). -/
def tiledBonds (s : USM) (na nb nc : ℕ) : List Bond :=
  (tileTriples na nb nc).enum.flatMap fun ti =>
    s.bonds.map (remapBond s ti.1 s.atoms.length)

/-- The scaled supercell cell: lengths multiplied by the replication
factors, everything else passed through. -/
noncomputable def scaledCell (cell : Cell) (na nb nc : ℕ) : Cell :=
  { cell with
      a := cell.a * (na : ℝ)
      b := cell.b * (nb : ℝ)
      c := cell.c * (nc : ℝ) }

/-- The supercell assembled from a validated input. -/
noncomputable def buildSupercell (s : USM) (na nb nc : ℕ) (flag : Bool)
    (A : Mat3) : USM :=
  { atoms := tiledAtoms s na nb nc flag A
    bonds := dedupBonds (tiledBonds s na nb nc)
    cell := scaledCell s.cell na nb nc }

/-- Modelled from the spec: `replicate_supercell(structure, na, nb, nc,
add_image_indices)` (missing source `usm/ops/replicate.py`).  Validates the
replication factors and the atom/bond tables (malformed preconditions are
invalid-argument errors, never silently corrected), then tiles atoms and
bonds across the na×nb×nc images and scales the cell lengths. -/
noncomputable def replicate_supercell (s : USM) (na nb nc : ℕ)
    (flag : Bool) : Except USMError USM :=
  if na = 0 ∨ nb = 0 ∨ nc = 0 then .error .invalidArgument
  else if ¬ (s.atoms.map Atom.aid).Nodup then .error .invalidArgument
  else if ¬ bondsWellFormed s then .error .invalidArgument
  else if ¬ (s.bonds.map bondKey).Nodup then .error .invalidArgument
  else (cellMatrix s).map (buildSupercell s na nb nc flag)

def defaultAtom : Atom := { aid := 0, name := "", element := "", x := 0, y := 0, z := 0, image := none }

/-- Look up an atom by identity (first match; a default atom when absent). -/
def findAtom (s : USM) (x : ℕ) : Atom :=
  (s.atoms.find? fun a0 => a0.aid == x).getD defaultAtom

/-- Fractional coordinates of an atom's position. -/
noncomputable def atomFrac (Ainv : Mat3) (a0 : Atom) : Vec3 :=
  Matrix.vecMul ![a0.x, a0.y, a0.z] Ainv

/-- The minimum-image offset of a fractional displacement component: the
integer `n` with `d - n` in the half-open interval (−0.5, 0.5]. -/
noncomputable def micOffset (d : ℝ) : ℤ := ⌈d - 1 / 2⌉

/-- Modelled from the spec: periodic image perception of a single bond —
compute the fractional displacement between the endpoints, wrap each axis
into (−0.5, 0.5], and record the bond's image offset. -/
noncomputable def perceiveBond (s : USM) (Ainv : Mat3) (b : Bond) : Bond :=
  let f1 := atomFrac Ainv (findAtom s b.a1)
  let f2 := atomFrac Ainv (findAtom s b.a2)
  { b with image := some (micOffset (f2 0 - f1 0), micOffset (f2 1 - f1 1), micOffset (f2 2 - f1 2)) }

/-- Modelled from the spec: `perceive_periodic_bonds(structure)` (missing
source `usm/ops/topology.py`).  A no-op when the cell is not periodic;
otherwise recomputes every bond's periodic image offset; propagates
`InvalidCellError` and `SingularMatrixError` from the lattice layer. -/
noncomputable def perceive_periodic_bonds (s : USM) : Except USMError USM :=
  if s.cell.pbc = false then .ok s
  else
    (cellMatrix s).bind fun A =>
      (lattice_inverse A).bind fun Ainv =>
        .ok { s with bonds := s.bonds.map (perceiveBond s Ainv) }

/-- Wrap one atom into the unit cell: fractional coordinates are reduced
modulo 1 (to `f - floor f`) and converted back to Cartesian. -/
noncomputable def wrapAtom (A Ainv : Mat3) (a0 : Atom) : Atom :=
  let f := atomFrac Ainv a0
  let p := Matrix.vecMul (fun i => Int.fract (f i)) A
  { a0 with x := p 0, y := p 1, z := p 2 }

/-- Modelled from the spec: `wrap_to_cell(structure)` (missing source
`usm/ops/transform.py`).  Maps every atom position to its representative
inside the unit cell. -/
noncomputable def wrap_to_cell (s : USM) : Except USMError USM :=
  (cellMatrix s).bind fun A =>
    (lattice_inverse A).bind fun Ainv =>
      .ok { s with atoms := s.atoms.map (wrapAtom A Ainv) }

/-- The diagonal lattice matrix of an orthorhombic (all-angles-90°) cell. -/
def orthoMat (a b c : ℝ) : Mat3 := !![a, 0, 0; 0, b, 0; 0, 0, c]

/-! Section: Concrete sample data (mirrors the three-atom/two-bond fixture of
the unit tests, on an orthorhombic cell) -/

def atomA1 : Atom := { aid := 0, name := "A1", element := "C", x := 0, y := 0, z := 0, image := none }

def atomA2 : Atom := { aid := 1, name := "A2", element := "H", x := 1, y := 0.2, z := 0.3, image := none }

def atomA3 : Atom := { aid := 2, name := "A3", element := "O", x := 2, y := 0.1, z := 0.4, image := none }

def bondB1 : Bond := { a1 := 0, a2 := 1, order := 1, image := none }

def bondB2 : Bond := { a1 := 1, a2 := 2, order := 1, image := none }

def sampleBase : USM :=
  { atoms := [atomA1, atomA2, atomA3]
    bonds := [bondB1, bondB2]
    cell := { a := 2, b := 3, c := 5, alpha := 90, beta := 90, gamma := 90,
              pbc := true, spacegroup := "" } }

/-- The supercell the sample replicates to (2×1×3 tiles). -/
noncomputable def sampleSup : USM :=
  buildSupercell sampleBase 2 1 3 true (orthoMat 2 3 5)

/-- The wrapped image of the sample structure. -/
noncomputable def wrapSampleOut : USM :=
  { sampleBase with
      atoms := sampleBase.atoms.map (wrapAtom (orthoMat 2 3 5) ((orthoMat 2 3 5)⁻¹)) }

/-! Section: Helper lemmas for the lattice layer -/

theorem deg2rad_ninety : deg2rad 90 = Real.pi / 2 := by unfold deg2rad; ring

theorem deg2rad_sixty : deg2rad 60 = Real.pi / 3 := by unfold deg2rad; ring

theorem deg2rad_zero : deg2rad 0 = 0 := by unfold deg2rad; ring

theorem sin_d90 : Real.sin (deg2rad 90) = 1 := by rw [deg2rad_ninety, Real.sin_pi_div_two]

theorem cos_d90 : Real.cos (deg2rad 90) = 0 := by rw [deg2rad_ninety, Real.cos_pi_div_two]

theorem one_le_sqrt_three : (1 : ℝ) ≤ Real.sqrt 3 := by
  nlinarith [Real.sq_sqrt (by norm_num : (3:ℝ) ≥ 0), Real.sqrt_nonneg 3]

theorem orthoMat_det (a b c : ℝ) : (orthoMat a b c).det = a * b * c := by
  simp [orthoMat, Matrix.det_fin_three]

theorem orthoMat_inv (a b c : ℝ) (ha : a ≠ 0) (hb : b ≠ 0) (hc : c ≠ 0) :
    (orthoMat a b c)⁻¹ = orthoMat a⁻¹ b⁻¹ c⁻¹ := by
  apply Matrix.inv_eq_right_inv
  ext i j
  fin_cases i <;> fin_cases j <;>
    simp [orthoMat, Matrix.mul_apply, Fin.sum_univ_three, Matrix.one_apply,
      mul_inv_cancel₀, ha, hb, hc, Matrix.vecHead, Matrix.vecTail]

theorem latticeCz2_ninety (c : ℝ) : latticeCz2 c 90 90 90 = c ^ 2 := by
  unfold latticeCz2 latticeCx latticeCy
  rw [cos_d90, sin_d90]
  ring

/-- Building an orthorhombic cell succeeds and yields the diagonal matrix. -/
theorem lattice_matrix_ortho (a b c : ℝ) (ha : 0 < a) (hb : 0 < b) (hc : 0 < c) :
    lattice_matrix a b c 90 90 90 = .ok (orthoMat a b c) := by
  unfold lattice_matrix
  rw [if_neg (by push_neg; exact ⟨ha, hb, hc⟩),
      if_neg (by rw [sin_d90]; unfold EPS; norm_num),
      if_neg (by rw [latticeCz2_ninety]; unfold EPS; nlinarith)]
  unfold orthoMat latticeCx latticeCy
  rw [latticeCz2_ninety, cos_d90, sin_d90, Real.sqrt_sq hc.le, mul_zero, mul_one]
  norm_num

/-- `lattice_inverse` succeeds on any matrix whose determinant clears the
tolerance, returning the true inverse. -/
theorem lattice_inverse_ok (M : Mat3) (h : EPS < |M.det|) :
    lattice_inverse M = .ok M⁻¹ := by
  unfold lattice_inverse
  rw [if_neg (not_le.mpr h)]

theorem det_ne_zero_of_eps (M : Mat3) (h : EPS < |M.det|) : M.det ≠ 0 := by
  have h0 : (0:ℝ) < EPS := by unfold EPS; norm_num
  intro hM
  rw [hM, abs_zero] at h
  linarith

theorem vecMul_cancel_right (A : Mat3) (hdet : A.det ≠ 0) (v : Vec3) :
    Matrix.vecMul (Matrix.vecMul v A) A⁻¹ = v := by
  rw [Matrix.vecMul_vecMul, Matrix.mul_nonsing_inv _ (isUnit_iff_ne_zero.mpr hdet),
    Matrix.vecMul_one]

theorem vecMul_cancel_left (A : Mat3) (hdet : A.det ≠ 0) (v : Vec3) :
    Matrix.vecMul (Matrix.vecMul v A⁻¹) A = v := by
  rw [Matrix.vecMul_vecMul, Matrix.nonsing_inv_mul _ (isUnit_iff_ne_zero.mpr hdet),
    Matrix.vecMul_one]

theorem lattice_inverse_det (A Ainv : Mat3) (h : lattice_inverse A = .ok Ainv) :
    A.det ≠ 0 ∧ Ainv = A⁻¹ := by
  unfold lattice_inverse at h
  split_ifs at h with hd
  cases h
  exact ⟨det_ne_zero_of_eps A (not_le.mp hd), rfl⟩

/-- Exact round trip: both compositions are the identity on either calling
form, for any matrix pair produced by `lattice_inverse`. -/
theorem roundtrip_exact (A Ainv : Mat3) (h : lattice_inverse A = .ok Ainv)
    (tol : ℝ) (htol : 0 ≤ tol) (f : Coords) :
    coordsClose tol (xyz_to_frac Ainv (frac_to_xyz A f)) f ∧
      coordsClose tol (frac_to_xyz A (xyz_to_frac Ainv f)) f := by
  obtain ⟨hdet, rfl⟩ := lattice_inverse_det A Ainv h
  constructor
  · cases f with
    | single v =>
        intro i
        rw [vecMul_cancel_right A hdet]
        simpa using htol
    | batch l =>
        refine ⟨by simp [frac_to_xyz, xyz_to_frac], ?_⟩
        intro i h1 h2 j
        simp only [frac_to_xyz, xyz_to_frac, List.getElem_map, List.get_eq_getElem] at h1 h2 ⊢
        rw [vecMul_cancel_right A hdet]
        simpa using htol
  · cases f with
    | single v =>
        intro i
        rw [vecMul_cancel_left A hdet]
        simpa using htol
    | batch l =>
        refine ⟨by simp [frac_to_xyz, xyz_to_frac], ?_⟩
        intro i h1 h2 j
        simp only [frac_to_xyz, xyz_to_frac, List.getElem_map, List.get_eq_getElem] at h1 h2 ⊢
        rw [vecMul_cancel_left A hdet]
        simpa using htol

/-! Section: Claim theorems: lattice layer -/

/-- C6: `build(a,b,c,alpha,beta,gamma)` fails with `InvalidCellError`
exactly when `sin(gamma)` is within numerical tolerance of zero, or the
implied `cz²` is negative beyond tolerance (in particular for the cell
a=b=c=1, alpha=0°, beta=0°, gamma=60°), or a length is non-positive; for
all other parameters it returns a lattice matrix. -/
theorem lattice_matrix_invalid_iff :
    (∀ a b c al be ga : ℝ,
      (lattice_matrix a b c al be ga = .error .invalidCell ↔
        a ≤ 0 ∨ b ≤ 0 ∨ c ≤ 0 ∨ |Real.sin (deg2rad ga)| ≤ EPS ∨
          latticeCz2 c al be ga < -EPS) ∧
      ((lattice_matrix a b c al be ga).isOk = true ↔
        ¬(a ≤ 0 ∨ b ≤ 0 ∨ c ≤ 0 ∨ |Real.sin (deg2rad ga)| ≤ EPS ∨
          latticeCz2 c al be ga < -EPS))) ∧
    lattice_matrix 1 1 1 0 0 60 = .error .invalidCell := by
  constructor
  · intro a b c al be ga
    constructor
    · unfold lattice_matrix
      split_ifs with h1 h2 h3
      · exact iff_of_true rfl (by tauto)
      · exact iff_of_true rfl (by tauto)
      · exact iff_of_true rfl (by tauto)
      · exact iff_of_false (by simp) (by tauto)
    · unfold lattice_matrix
      split_ifs with h1 h2 h3
      · exact iff_of_false (by simp [Except.isOk, Except.toBool]) (by tauto)
      · exact iff_of_false (by simp [Except.isOk, Except.toBool]) (by tauto)
      · exact iff_of_false (by simp [Except.isOk, Except.toBool]) (by tauto)
      · exact iff_of_true (by simp [Except.isOk, Except.toBool]) (by tauto)
  · have hcz : latticeCz2 1 0 0 60 = -(1/3) := by
      unfold latticeCz2 latticeCx latticeCy
      rw [deg2rad_sixty, deg2rad_zero, Real.cos_zero, Real.sin_pi_div_three,
        Real.cos_pi_div_three, div_pow,
        show ((1:ℝ) * (1 - 1 * (1/2))) = 1/2 by ring,
        show (Real.sqrt 3 / 2) ^ 2 = 3 / 4 by
          rw [div_pow, Real.sq_sqrt (by norm_num : (3:ℝ) ≥ 0)]; norm_num]
      norm_num
    unfold lattice_matrix
    rw [if_neg (by norm_num), if_neg, if_pos]
    · rw [hcz]; unfold EPS; norm_num
    · rw [deg2rad_sixty, Real.sin_pi_div_three]
      have h3 := one_le_sqrt_three
      rw [abs_of_pos (by linarith)]
      unfold EPS
      intro hcon
      linarith

/-- C7: `invert(matrix)` fails with `SingularMatrixError` when the
determinant is within numerical tolerance of zero (in particular on the
all-zero matrix), and on every matrix whose determinant clears the
tolerance it returns the 3×3 two-sided inverse. -/
theorem lattice_inverse_spec :
    (∀ M : Mat3,
      (lattice_inverse M = .error .singularMatrix ↔ |M.det| ≤ EPS) ∧
      (EPS < |M.det| →
        lattice_inverse M = .ok M⁻¹ ∧ M * M⁻¹ = 1 ∧ M⁻¹ * M = 1)) ∧
    lattice_inverse (0 : Mat3) = .error .singularMatrix := by
  constructor
  · intro M
    constructor
    · unfold lattice_inverse
      split_ifs with h
      · exact iff_of_true rfl h
      · exact iff_of_false (by simp) h
    · intro h
      have hdet := det_ne_zero_of_eps M h
      have hu : IsUnit M.det := isUnit_iff_ne_zero.mpr hdet
      exact ⟨lattice_inverse_ok M h, Matrix.mul_nonsing_inv M hu,
        Matrix.nonsing_inv_mul M hu⟩
  · unfold lattice_inverse
    rw [if_pos]
    rw [Matrix.det_zero (by exact ⟨0⟩), abs_zero]
    unfold EPS
    norm_num

/-- C7 witness: the identity matrix clears the tolerance and is inverted. -/
theorem lattice_inverse_spec_witness :
    lattice_inverse (1 : Mat3) = .ok (1 : Mat3)⁻¹ :=
  ((lattice_inverse_spec.1 1).2
    (by rw [Matrix.det_one, abs_one]; unfold EPS; norm_num)).1

/-- C1: for every valid triclinic cell with matrix `A` and inverse `Ainv`,
and every real-valued fractional coordinate `f` (single vector or batch),
`cartesian_to_fractional(Ainv, fractional_to_cartesian(A, f))` equals `f`
within 1e-12 componentwise, and symmetrically for Cartesian round trips. -/
theorem frac_cart_roundtrip (a b c al be ga : ℝ) (A Ainv : Mat3)
    (hA : lattice_matrix a b c al be ga = .ok A)
    (hI : lattice_inverse A = .ok Ainv) (f x : Coords) :
    coordsClose RT_TOL (xyz_to_frac Ainv (frac_to_xyz A f)) f ∧
      coordsClose RT_TOL (frac_to_xyz A (xyz_to_frac Ainv x)) x := by
  have htol : (0:ℝ) ≤ RT_TOL := by unfold RT_TOL; norm_num
  exact ⟨(roundtrip_exact A Ainv hI RT_TOL htol f).1,
    (roundtrip_exact A Ainv hI RT_TOL htol x).2⟩

/-- C1 witness: a concrete orthorhombic cell and concrete coordinates. -/
theorem frac_cart_roundtrip_witness :
    coordsClose RT_TOL
      (xyz_to_frac ((orthoMat 2 3 5)⁻¹)
        (frac_to_xyz (orthoMat 2 3 5) (.batch [![1, -2, 3], ![0.5, 0, 7]])))
      (.batch [![1, -2, 3], ![0.5, 0, 7]]) := by
  have hdet : EPS < |(orthoMat 2 3 5).det| := by
    rw [orthoMat_det]; unfold EPS; norm_num
  exact (frac_cart_roundtrip 2 3 5 90 90 90 (orthoMat 2 3 5) ((orthoMat 2 3 5)⁻¹)
    (lattice_matrix_ortho 2 3 5 (by norm_num) (by norm_num) (by norm_num))
    (lattice_inverse_ok _ hdet)
    (.batch [![1, -2, 3], ![0.5, 0, 7]]) (.single ![0, 0, 0])).1

/-- C10: both batch transforms preserve the shape of their coordinate
argument (single 3-vector to single 3-vector, N×3 batch to N×3 batch), and
the round-trip tolerance holds in both calling forms. -/
theorem transform_shapes_roundtrip :
    (∀ (A : Mat3) (f : Coords),
      cshape (frac_to_xyz A f) = cshape f ∧ cshape (xyz_to_frac A f) = cshape f) ∧
    (∀ (a b c al be ga : ℝ) (A Ainv : Mat3),
      lattice_matrix a b c al be ga = .ok A →
      lattice_inverse A = .ok Ainv →
      ∀ (v : Vec3) (l : List Vec3),
        coordsClose RT_TOL (xyz_to_frac Ainv (frac_to_xyz A (.single v))) (.single v) ∧
        coordsClose RT_TOL (xyz_to_frac Ainv (frac_to_xyz A (.batch l))) (.batch l)) := by
  constructor
  · intro A f
    cases f <;> simp [frac_to_xyz, xyz_to_frac, cshape]
  · intro a b c al be ga A Ainv hA hI v l
    have htol : (0:ℝ) ≤ RT_TOL := by unfold RT_TOL; norm_num
    exact ⟨(roundtrip_exact A Ainv hI RT_TOL htol (.single v)).1,
      (roundtrip_exact A Ainv hI RT_TOL htol (.batch l)).1⟩

/-- C10 witness: shape preservation and round trip at a concrete cell. -/
theorem transform_shapes_roundtrip_witness :
    coordsClose RT_TOL
      (xyz_to_frac ((orthoMat 2 3 5)⁻¹)
        (frac_to_xyz (orthoMat 2 3 5) (.single ![0.2, -0.3, 1.1])))
      (.single ![0.2, -0.3, 1.1]) := by
  have hdet : EPS < |(orthoMat 2 3 5).det| := by
    rw [orthoMat_det]; unfold EPS; norm_num
  exact (transform_shapes_roundtrip.2 2 3 5 90 90 90 (orthoMat 2 3 5)
    ((orthoMat 2 3 5)⁻¹)
    (lattice_matrix_ortho 2 3 5 (by norm_num) (by norm_num) (by norm_num))
    (lattice_inverse_ok _ hdet) ![0.2, -0.3, 1.1] []).1

/-! Section: Helper lemmas for the replicate layer -/

theorem length_flatMap_map {α β γ : Type} (l : List α) (m : List β) (g : α → β → γ) :
    (l.flatMap fun x => m.map (g x)).length = l.length * m.length := by
  induction l with
  | nil => simp
  | cons x xs ih => simp [List.flatMap_cons, ih, Nat.succ_mul, Nat.add_comm]

theorem length_flatMap_const {α γ : Type} (l : List α) (g : α → List γ) (k : ℕ)
    (h : ∀ x ∈ l, (g x).length = k) : (l.flatMap g).length = l.length * k := by
  induction l with
  | nil => simp
  | cons x xs ih =>
      rw [List.flatMap_cons, List.length_append, h x (List.mem_cons_self x xs),
        ih fun y hy => h y (List.mem_cons_of_mem x hy), List.length_cons]
      ring

theorem tileTriples_length (na nb nc : ℕ) :
    (tileTriples na nb nc).length = na * nb * nc := by
  unfold tileTriples
  rw [length_flatMap_const _ _ (nb * nc) ?_, List.length_range, Nat.mul_assoc]
  intro i _
  rw [length_flatMap_map, List.length_range, List.length_range]

theorem tiledAtoms_length (s : USM) (na nb nc : ℕ) (flag : Bool) (A : Mat3) :
    (tiledAtoms s na nb nc flag A).length = na * nb * nc * s.atoms.length := by
  unfold tiledAtoms
  rw [length_flatMap_map, List.enum_length, List.enum_length, tileTriples_length]

theorem tiledBonds_length (s : USM) (na nb nc : ℕ) :
    (tiledBonds s na nb nc).length = na * nb * nc * s.bonds.length := by
  unfold tiledBonds
  rw [length_flatMap_map, List.enum_length, tileTriples_length]

/-- Inversion: a successful replication implies every validation check
passed, and exposes the built supercell. -/
theorem replicate_ok_inv (s : USM) (na nb nc : ℕ) (flag : Bool) (sup : USM)
    (h : replicate_supercell s na nb nc flag = .ok sup) :
    ¬(na = 0 ∨ nb = 0 ∨ nc = 0) ∧ (s.atoms.map Atom.aid).Nodup ∧
      bondsWellFormed s = true ∧ (s.bonds.map bondKey).Nodup ∧
      ∃ A, cellMatrix s = .ok A ∧ sup = buildSupercell s na nb nc flag A := by
  unfold replicate_supercell at h
  split_ifs at h with h1 h2 h3 h4
  cases hc : cellMatrix s with
  | error e =>
      rw [hc] at h
      exact absurd h (by simp [Except.map])
  | ok A =>
      rw [hc] at h
      simp only [Except.map] at h
      cases h
      exact ⟨h1, h2, h3, h4, A, rfl, rfl⟩

theorem nodup_map_iff_pairwise_ne {α β : Type} (f : α → β) (l : List α) :
    (l.map f).Nodup ↔ l.Pairwise fun x y => f x ≠ f y := by
  induction l with
  | nil => simp
  | cons x xs ih =>
      simp [List.nodup_cons, List.pairwise_cons, ih, List.mem_map]
      tauto

theorem pairwise_fst_lt_enum {γ : Type} (l : List γ) :
    l.enum.Pairwise fun u w => u.1 < w.1 := by
  have h2 : (l.enum.map Prod.fst).Pairwise (· < ·) := by
    rw [List.enum_map_fst]
    exact List.pairwise_lt_range l.length
  exact List.pairwise_map.mp h2

theorem fst_lt_of_mem_enum {γ : Type} {l : List γ} {p : ℕ × γ} (h : p ∈ l.enum) :
    p.1 < l.length := by
  rw [List.mem_enum_iff_getElem?] at h
  exact (List.getElem?_eq_some_iff.mp h).1

theorem enum_mem_self {γ : Type} (l : List γ) (i : ℕ) (h : i < l.length) :
    (i, l.get ⟨i, h⟩) ∈ l.enum := by
  have h2 : i < l.enum.length := by simpa using h
  have h3 : l.enum[i] = (i, l.get ⟨i, h⟩) := by
    rw [List.getElem_enum]
    simp
  rw [← h3]
  exact List.getElem_mem h2

/-- Lists indexed by tiles, whose elements carry a key inside the tile's
own interval `[t·nA, t·nA + nA)`, concatenate without duplicates. -/
theorem nodup_flatMap_tiles {α γ : Type} (T : List (ℕ × γ)) (g : ℕ × γ → List α)
    (kf : α → ℕ) (nA : ℕ)
    (hpair : T.Pairwise fun u w => u.1 < w.1)
    (hbound : ∀ ti ∈ T, ∀ v ∈ g ti, ti.1 * nA ≤ kf v ∧ kf v < ti.1 * nA + nA)
    (hnd : ∀ ti ∈ T, (g ti).Nodup) : (T.flatMap g).Nodup := by
  rw [List.nodup_flatMap]
  refine ⟨hnd, ?_⟩
  refine List.Pairwise.imp_of_mem ?_ hpair
  intro u w hu hw hlt
  intro y hy1 hy2
  have b1 := hbound u hu y hy1
  have b2 := hbound w hw y hy2
  have hle : u.1 * nA + nA ≤ w.1 * nA := by
    have hsucc : u.1 + 1 ≤ w.1 := hlt
    calc u.1 * nA + nA = (u.1 + 1) * nA := by ring
      _ ≤ w.1 * nA := Nat.mul_le_mul_right nA hsucc
  omega

theorem bondsWellFormed_spec (s : USM) (h : bondsWellFormed s = true) :
    ∀ b ∈ s.bonds, (s.atoms.any fun a0 => a0.aid == b.a1) = true ∧
      (s.atoms.any fun a0 => a0.aid == b.a2) = true ∧ b.a1 ≠ b.a2 := by
  intro b hb
  unfold bondsWellFormed at h
  rw [List.all_eq_true] at h
  have h2 := h b hb
  simp only [Bool.and_eq_true, bne_iff_ne] at h2
  exact ⟨h2.1.1, h2.1.2, h2.2⟩

theorem aidIndex_lt (s : USM) (x : ℕ)
    (h : (s.atoms.any fun a0 => a0.aid == x) = true) :
    aidIndex s x < s.atoms.length := by
  obtain ⟨a0, ha, hp⟩ := List.any_eq_true.mp h
  exact List.findIdx_lt_length_of_exists ⟨a0, ha, hp⟩

theorem aidIndex_val (s : USM) (x i : ℕ) (hi : i < s.atoms.length)
    (hix : aidIndex s x = i) : (s.atoms.get ⟨i, hi⟩).aid = x := by
  unfold aidIndex at hix
  subst hix
  have h2 := List.findIdx_getElem (p := fun a0 : Atom => a0.aid == x) (w := hi)
  simpa using h2

theorem aidIndex_inj (s : USM) (x y : ℕ)
    (hx : (s.atoms.any fun a0 => a0.aid == x) = true)
    (hy : (s.atoms.any fun a0 => a0.aid == y) = true)
    (hEq : aidIndex s x = aidIndex s y) : x = y := by
  have hlt := aidIndex_lt s y hy
  have h1 := aidIndex_val s x (aidIndex s y) hlt hEq
  have h2 := aidIndex_val s y (aidIndex s y) hlt rfl
  rw [← h1, h2]

theorem remapBond_pair (s : USM) (t nA : ℕ) (b : Bond) :
    bondPair (remapBond s t nA b) =
      (t * nA + min (aidIndex s b.a1) (aidIndex s b.a2),
       t * nA + max (aidIndex s b.a1) (aidIndex s b.a2)) := by
  unfold bondPair remapBond
  dsimp only
  congr 1 <;> omega

/-- Replicated atom identities are globally duplicate-free. -/
theorem tiledAtoms_aid_nodup (s : USM) (na nb nc : ℕ) (flag : Bool) (A : Mat3) :
    ((tiledAtoms s na nb nc flag A).map Atom.aid).Nodup := by
  unfold tiledAtoms
  rw [List.map_flatMap]
  apply nodup_flatMap_tiles _ _ id s.atoms.length
  · exact pairwise_fst_lt_enum _
  · intro ti hti v hv
    rw [List.map_map] at hv
    obtain ⟨pa, hpa, rfl⟩ := List.mem_map.mp hv
    have hlt := fst_lt_of_mem_enum hpa
    show ti.1 * s.atoms.length ≤ ti.1 * s.atoms.length + pa.1 ∧
      ti.1 * s.atoms.length + pa.1 < ti.1 * s.atoms.length + s.atoms.length
    omega
  · intro ti hti
    rw [List.map_map]
    have hcomp : (Atom.aid ∘ fun pa : ℕ × Atom =>
        mkTiledAtom A ti.1 ti.2 pa.1 pa.2 s.atoms.length flag)
        = (fun p => ti.1 * s.atoms.length + p) ∘ Prod.fst := rfl
    rw [hcomp, ← List.map_map, List.enum_map_fst]
    exact (List.nodup_range _).map fun p q hpq => by omega

/-- The replicated bond list carries pairwise-distinct ordered endpoint
pairs, provided the base table was well formed with duplicate-free
canonical keys. -/
theorem tiledBonds_pair_nodup (s : USM) (na nb nc : ℕ)
    (hWF : bondsWellFormed s = true) (hKeys : (s.bonds.map bondKey).Nodup) :
    ((tiledBonds s na nb nc).map bondPair).Nodup := by
  unfold tiledBonds
  rw [List.map_flatMap]
  apply nodup_flatMap_tiles _ _ Prod.fst s.atoms.length
  · exact pairwise_fst_lt_enum _
  · intro ti hti v hv
    rw [List.map_map] at hv
    obtain ⟨b, hb, rfl⟩ := List.mem_map.mp hv
    obtain ⟨h1, h2, h3⟩ := bondsWellFormed_spec s hWF b hb
    have l1 := aidIndex_lt s b.a1 h1
    have l2 := aidIndex_lt s b.a2 h2
    show ti.1 * s.atoms.length ≤ (bondPair (remapBond s ti.1 s.atoms.length b)).1 ∧
      (bondPair (remapBond s ti.1 s.atoms.length b)).1 <
        ti.1 * s.atoms.length + s.atoms.length
    rw [remapBond_pair]
    dsimp only
    omega
  · intro ti hti
    rw [List.map_map, nodup_map_iff_pairwise_ne]
    have hK : s.bonds.Pairwise fun b b2 => bondKey b ≠ bondKey b2 :=
      (nodup_map_iff_pairwise_ne _ _).mp hKeys
    refine List.Pairwise.imp_of_mem ?_ hK
    intro b b2 hbmem hb2mem hne hEqPair
    apply hne
    have hEq2 : bondPair (remapBond s ti.1 s.atoms.length b) =
        bondPair (remapBond s ti.1 s.atoms.length b2) := hEqPair
    rw [remapBond_pair, remapBond_pair, Prod.ext_iff] at hEq2
    obtain ⟨e1, e2⟩ := hEq2
    dsimp only at e1 e2
    obtain ⟨w1, w2, w3⟩ := bondsWellFormed_spec s hWF b hbmem
    obtain ⟨u1, u2, u3⟩ := bondsWellFormed_spec s hWF b2 hb2mem
    have hcase : (aidIndex s b.a1 = aidIndex s b2.a1 ∧
        aidIndex s b.a2 = aidIndex s b2.a2) ∨
        (aidIndex s b.a1 = aidIndex s b2.a2 ∧
        aidIndex s b.a2 = aidIndex s b2.a1) := by omega
    unfold bondKey
    rcases hcase with ⟨c1, c2⟩ | ⟨c1, c2⟩
    · rw [aidIndex_inj s b.a1 b2.a1 w1 u1 c1, aidIndex_inj s b.a2 b2.a2 w2 u2 c2]
    · rw [aidIndex_inj s b.a1 b2.a2 w1 u2 c1, aidIndex_inj s b.a2 b2.a1 w2 u1 c2]
      rw [Prod.ext_iff]
      constructor <;> [exact Nat.min_comm _ _; exact Nat.max_comm _ _]

/-- On validated input the dedup safety net removes nothing. -/
theorem dedupBonds_tiled (s : USM) (na nb nc : ℕ)
    (hWF : bondsWellFormed s = true) (hKeys : (s.bonds.map bondKey).Nodup) :
    dedupBonds (tiledBonds s na nb nc) = tiledBonds s na nb nc := by
  unfold dedupBonds
  rw [List.pwFilter_eq_self, ← nodup_map_iff_pairwise_ne]
  exact tiledBonds_pair_nodup s na nb nc hWF hKeys

theorem replicate_cons_inj (a b : ℕ) (xs ys : List Char)
    (h : List.replicate a fillChar ++ sepChar :: xs =
      List.replicate b fillChar ++ sepChar :: ys) : a = b ∧ xs = ys := by
  induction a generalizing b with
  | zero =>
      cases b with
      | zero => simpa using h
      | succ b =>
          rw [List.replicate_succ] at h
          simp only [List.replicate_zero, List.nil_append, List.cons_append,
            List.cons.injEq] at h
          exact absurd h.1 (by decide)
  | succ a ih =>
      cases b with
      | zero =>
          rw [List.replicate_succ] at h
          simp only [List.replicate_zero, List.nil_append, List.cons_append,
            List.cons.injEq] at h
          exact absurd h.1 (by decide)
      | succ b =>
          rw [List.replicate_succ, List.replicate_succ] at h
          simp only [List.cons_append, List.cons.injEq] at h
          obtain ⟨h3, h4⟩ := ih b h.2
          exact ⟨by omega, h4⟩

theorem tiledName_inj (n m : ℕ) (x y : String)
    (h : tiledName n x = tiledName m y) : n = m ∧ x = y := by
  unfold tiledName at h
  have h2 : List.replicate n fillChar ++ sepChar :: x.data =
      List.replicate m fillChar ++ sepChar :: y.data := congrArg String.data h
  obtain ⟨h3, h4⟩ := replicate_cons_inj n m x.data y.data h2
  refine ⟨h3, ?_⟩
  cases x
  cases y
  exact congrArg String.mk h4

/-- Every replicated atom's name is its base name qualified by its own new
identity. -/
theorem tiledAtoms_name_shape (s : USM) (na nb nc : ℕ) (flag : Bool) (A : Mat3) :
    ∀ z ∈ tiledAtoms s na nb nc flag A, ∃ bn : String, z.name = tiledName z.aid bn := by
  intro z hz
  unfold tiledAtoms at hz
  rw [List.mem_flatMap] at hz
  obtain ⟨ti, hti, hz2⟩ := hz
  obtain ⟨pa, hpa, rfl⟩ := List.mem_map.mp hz2
  exact ⟨pa.2.name, rfl⟩

/-! Section: Claim theorems: replicate layer -/

/-- C5: the supercell cell has lengths (a·na, b·nb, c·nc) while the angles,
the pbc flag and the remaining cell metadata are unchanged. -/
theorem replicate_cell_scaling (s : USM) (na nb nc : ℕ) (flag : Bool) (sup : USM)
    (h : replicate_supercell s na nb nc flag = .ok sup) :
    sup.cell.a = s.cell.a * (na : ℝ) ∧ sup.cell.b = s.cell.b * (nb : ℝ) ∧
      sup.cell.c = s.cell.c * (nc : ℝ) ∧ sup.cell.alpha = s.cell.alpha ∧
      sup.cell.beta = s.cell.beta ∧ sup.cell.gamma = s.cell.gamma ∧
      sup.cell.pbc = s.cell.pbc ∧ sup.cell.spacegroup = s.cell.spacegroup := by
  obtain ⟨-, -, -, -, A, -, rfl⟩ := replicate_ok_inv s na nb nc flag sup h
  exact ⟨rfl, rfl, rfl, rfl, rfl, rfl, rfl, rfl⟩

/-- C2: a successful replication returns exactly |atoms|·na·nb·nc atoms and
|bonds|·na·nb·nc bonds, regardless of the `add_image_indices` flag. -/
theorem replicate_counts (s : USM) (na nb nc : ℕ) (flag : Bool) (sup : USM)
    (h : replicate_supercell s na nb nc flag = .ok sup) :
    sup.atoms.length = s.atoms.length * (na * nb * nc) ∧
      sup.bonds.length = s.bonds.length * (na * nb * nc) := by
  obtain ⟨-, -, hWF, hKeys, A, -, rfl⟩ := replicate_ok_inv s na nb nc flag sup h
  constructor
  · show (tiledAtoms s na nb nc flag A).length = _
    rw [tiledAtoms_length]
    ring
  · show (dedupBonds (tiledBonds s na nb nc)).length = _
    rw [dedupBonds_tiled s na nb nc hWF hKeys, tiledBonds_length]
    ring

/-- C3: the atom names of a successful replication are pairwise distinct
across the entire output, for either value of `add_image_indices`. -/
theorem replicate_name_uniqueness (s : USM) (na nb nc : ℕ) (flag : Bool)
    (sup : USM) (h : replicate_supercell s na nb nc flag = .ok sup) :
    (sup.atoms.map Atom.name).Nodup := by
  obtain ⟨-, -, -, -, A, -, rfl⟩ := replicate_ok_inv s na nb nc flag sup h
  show ((tiledAtoms s na nb nc flag A).map Atom.name).Nodup
  have hAids := tiledAtoms_aid_nodup s na nb nc flag A
  have hl : (tiledAtoms s na nb nc flag A).Nodup := hAids.of_map
  rw [List.nodup_map_iff_inj_on hl]
  intro x hx y hy hname
  obtain ⟨bx, hbx⟩ := tiledAtoms_name_shape s na nb nc flag A x hx
  obtain ⟨by2, hby⟩ := tiledAtoms_name_shape s na nb nc flag A y hy
  rw [hbx, hby] at hname
  have haid : x.aid = y.aid := (tiledName_inj _ _ _ _ hname).1
  exact (List.nodup_map_iff_inj_on hl).mp hAids x hx y hy haid

/-- C4: in a successful replication every bond's endpoints name atoms that
exist in the output, the first endpoint is strictly below the second, and
the ordered endpoint pairs are duplicate-free with as many distinct pairs
as bonds. -/
theorem replicate_bond_validity (s : USM) (na nb nc : ℕ) (flag : Bool)
    (sup : USM) (h : replicate_supercell s na nb nc flag = .ok sup) :
    (∀ b ∈ sup.bonds,
      (∃ a0 ∈ sup.atoms, a0.aid = b.a1) ∧ (∃ a0 ∈ sup.atoms, a0.aid = b.a2) ∧
        b.a1 < b.a2) ∧
      (sup.bonds.map bondPair).Nodup ∧
      (sup.bonds.map bondPair).dedup.length = sup.bonds.length := by
  obtain ⟨-, -, hWF, hKeys, A, -, rfl⟩ := replicate_ok_inv s na nb nc flag sup h
  have hded : (buildSupercell s na nb nc flag A).bonds = tiledBonds s na nb nc :=
    dedupBonds_tiled s na nb nc hWF hKeys
  have hpn := tiledBonds_pair_nodup s na nb nc hWF hKeys
  refine ⟨?_, ?_, ?_⟩
  · intro b hb
    rw [hded] at hb
    unfold tiledBonds at hb
    rw [List.mem_flatMap] at hb
    obtain ⟨ti, hti, hb2⟩ := hb
    obtain ⟨b0, hb0, rfl⟩ := List.mem_map.mp hb2
    obtain ⟨w1, w2, w3⟩ := bondsWellFormed_spec s hWF b0 hb0
    have l1 := aidIndex_lt s b0.a1 w1
    have l2 := aidIndex_lt s b0.a2 w2
    have hne : aidIndex s b0.a1 ≠ aidIndex s b0.a2 := fun hEq =>
      w3 (aidIndex_inj s b0.a1 b0.a2 w1 w2 hEq)
    have hp := remapBond_pair s ti.1 s.atoms.length b0
    rw [Prod.ext_iff] at hp
    obtain ⟨hp1, hp2⟩ := hp
    have hmem : ∀ p : ℕ, p < s.atoms.length →
        ∃ a0 ∈ (buildSupercell s na nb nc flag A).atoms,
          a0.aid = ti.1 * s.atoms.length + p := by
      intro p hplt
      refine ⟨mkTiledAtom A ti.1 ti.2 p (s.atoms.get ⟨p, hplt⟩) s.atoms.length flag,
        ?_, rfl⟩
      show _ ∈ tiledAtoms s na nb nc flag A
      unfold tiledAtoms
      rw [List.mem_flatMap]
      exact ⟨ti, hti, List.mem_map.mpr ⟨(p, s.atoms.get ⟨p, hplt⟩),
        enum_mem_self s.atoms p hplt, rfl⟩⟩
    refine ⟨?_, ?_, ?_⟩
    · rw [show (remapBond s ti.1 s.atoms.length b0).a1 =
        (bondPair (remapBond s ti.1 s.atoms.length b0)).1 from rfl, hp1]
      exact hmem _ (by omega)
    · rw [show (remapBond s ti.1 s.atoms.length b0).a2 =
        (bondPair (remapBond s ti.1 s.atoms.length b0)).2 from rfl, hp2]
      exact hmem _ (by omega)
    · have e1 : (remapBond s ti.1 s.atoms.length b0).a1 =
        (bondPair (remapBond s ti.1 s.atoms.length b0)).1 := rfl
      have e2 : (remapBond s ti.1 s.atoms.length b0).a2 =
        (bondPair (remapBond s ti.1 s.atoms.length b0)).2 := rfl
      rw [e1, e2, hp1, hp2]
      omega
  · rw [hded]
    exact hpn
  · rw [hded, List.dedup_eq_self.mpr hpn, List.length_map]

/-- The sample replication succeeds and produces `sampleSup`. -/
theorem sampleRep_eq : replicate_supercell sampleBase 2 1 3 true = .ok sampleSup := by
  unfold replicate_supercell
  rw [if_neg (by decide), if_neg (by decide), if_neg (by decide), if_neg (by decide)]
  rw [show cellMatrix sampleBase = Except.ok (orthoMat 2 3 5) from
    lattice_matrix_ortho 2 3 5 (by norm_num) (by norm_num) (by norm_num)]
  rfl

/-- C2 witness: the 3-atom/2-bond sample replicated 2×1×3. -/
theorem replicate_counts_witness :
    sampleSup.atoms.length = 3 * (2 * 1 * 3) ∧
      sampleSup.bonds.length = 2 * (2 * 1 * 3) := by
  have h := replicate_counts sampleBase 2 1 3 true sampleSup sampleRep_eq
  simpa [sampleBase] using h

/-- C3 witness: concrete name uniqueness for the sample supercell. -/
theorem replicate_name_uniqueness_witness :
    (sampleSup.atoms.map Atom.name).Nodup :=
  replicate_name_uniqueness sampleBase 2 1 3 true sampleSup sampleRep_eq

/-- C4 witness: concrete pair-distinctness for the sample supercell. -/
theorem replicate_bond_validity_witness :
    (sampleSup.bonds.map bondPair).Nodup ∧
      (sampleSup.bonds.map bondPair).dedup.length = sampleSup.bonds.length :=
  (replicate_bond_validity sampleBase 2 1 3 true sampleSup sampleRep_eq).2

/-- C5 witness: concrete cell scaling for the sample supercell. -/
theorem replicate_cell_scaling_witness :
    sampleSup.cell.a = sampleBase.cell.a * ((2 : ℕ) : ℝ) ∧
      sampleSup.cell.gamma = sampleBase.cell.gamma ∧
      sampleSup.cell.pbc = sampleBase.cell.pbc :=
  ⟨(replicate_cell_scaling sampleBase 2 1 3 true sampleSup sampleRep_eq).1,
    (replicate_cell_scaling sampleBase 2 1 3 true sampleSup sampleRep_eq).2.2.2.2.2.1,
    (replicate_cell_scaling sampleBase 2 1 3 true sampleSup sampleRep_eq).2.2.2.2.2.2.1⟩

/-! Section: Claim theorems: wrap and periodic perception -/

theorem vec3_eta (p : Vec3) : ![p 0, p 1, p 2] = p := by
  funext i
  fin_cases i <;> simp

/-- C8: for every valid cell, wrapping maps every atom to fractional
coordinates equal to the original fractional coordinates modulo 1 within
1e-12, with every wrapped fractional component in [0, 1). -/
theorem wrap_to_cell_frac (s : USM) (A Ainv : Mat3) (s2 : USM)
    (hA : cellMatrix s = .ok A) (hI : lattice_inverse A = .ok Ainv)
    (hw : wrap_to_cell s = .ok s2) :
    s2.atoms = s.atoms.map (wrapAtom A Ainv) ∧
      ∀ a0 ∈ s.atoms, ∀ j : Fin 3,
        |atomFrac Ainv (wrapAtom A Ainv a0) j - Int.fract (atomFrac Ainv a0 j)| ≤ RT_TOL ∧
          0 ≤ atomFrac Ainv (wrapAtom A Ainv a0) j ∧
          atomFrac Ainv (wrapAtom A Ainv a0) j < 1 := by
  obtain ⟨hdet, rfl⟩ := lattice_inverse_det A Ainv hI
  have hAI : A * A⁻¹ = 1 := Matrix.mul_nonsing_inv A (isUnit_iff_ne_zero.mpr hdet)
  have hkey : ∀ a0 : Atom, atomFrac A⁻¹ (wrapAtom A A⁻¹ a0) =
      fun i => Int.fract (atomFrac A⁻¹ a0 i) := by
    intro a0
    unfold wrapAtom atomFrac
    dsimp only
    rw [vec3_eta, Matrix.vecMul_vecMul, hAI, Matrix.vecMul_one]
  constructor
  · unfold wrap_to_cell at hw
    rw [hA] at hw
    have hw2 : (lattice_inverse A).bind (fun Ainv2 =>
        Except.ok { s with atoms := s.atoms.map (wrapAtom A Ainv2) }) =
        Except.ok s2 := hw
    rw [hI] at hw2
    cases hw2
    rfl
  · intro a0 ha j
    rw [hkey a0]
    refine ⟨?_, Int.fract_nonneg _, Int.fract_lt_one _⟩
    simp only [sub_self, abs_zero]
    unfold RT_TOL
    norm_num

/-- The sample structure wraps successfully to `wrapSampleOut`. -/
theorem wrapSample_eq : wrap_to_cell sampleBase = .ok wrapSampleOut := by
  unfold wrap_to_cell
  rw [show cellMatrix sampleBase = Except.ok (orthoMat 2 3 5) from
    lattice_matrix_ortho 2 3 5 (by norm_num) (by norm_num) (by norm_num)]
  show (lattice_inverse (orthoMat 2 3 5)).bind _ = _
  rw [lattice_inverse_ok _ (by rw [orthoMat_det]; unfold EPS; norm_num)]
  rfl

/-- C8 witness: a concrete wrapped atom of the sample structure lands in
the unit interval in fractional space. -/
theorem wrap_to_cell_frac_witness :
    0 ≤ atomFrac ((orthoMat 2 3 5)⁻¹)
        (wrapAtom (orthoMat 2 3 5) ((orthoMat 2 3 5)⁻¹) atomA2) 1 ∧
      atomFrac ((orthoMat 2 3 5)⁻¹)
        (wrapAtom (orthoMat 2 3 5) ((orthoMat 2 3 5)⁻¹) atomA2) 1 < 1 := by
  have h := (wrap_to_cell_frac sampleBase (orthoMat 2 3 5) ((orthoMat 2 3 5)⁻¹)
    wrapSampleOut
    (lattice_matrix_ortho 2 3 5 (by norm_num) (by norm_num) (by norm_num))
    (lattice_inverse_ok _ (by rw [orthoMat_det]; unfold EPS; norm_num))
    wrapSample_eq).2 atomA2 (by simp [sampleBase]) 1
  exact ⟨h.2.1, h.2.2⟩

/-- C9: periodic bond perception is idempotent — applying `perceive` to an
already-perceived structure returns it unchanged, so
`perceive (perceive s)` equals `perceive s`. -/
theorem perceive_idempotent (s : USM) :
    (perceive_periodic_bonds s).bind perceive_periodic_bonds =
      perceive_periodic_bonds s := by
  by_cases hp : s.cell.pbc = false
  · have h1 : perceive_periodic_bonds s = .ok s := by
      unfold perceive_periodic_bonds
      rw [if_pos hp]
    rw [h1]
    show perceive_periodic_bonds s = .ok s
    exact h1
  · cases hc : cellMatrix s with
    | error e =>
        have h1 : perceive_periodic_bonds s = .error e := by
          unfold perceive_periodic_bonds
          rw [if_neg hp, hc]
          rfl
        rw [h1]
        rfl
    | ok A =>
        cases hi : lattice_inverse A with
        | error e =>
            have h1 : perceive_periodic_bonds s = .error e := by
              unfold perceive_periodic_bonds
              rw [if_neg hp, hc]
              show (lattice_inverse A).bind _ = _
              rw [hi]
              rfl
            rw [h1]
            rfl
        | ok Ainv =>
            have h1 : perceive_periodic_bonds s =
                .ok { s with bonds := s.bonds.map (perceiveBond s Ainv) } := by
              unfold perceive_periodic_bonds
              rw [if_neg hp, hc]
              show (lattice_inverse A).bind _ = _
              rw [hi]
              rfl
            rw [h1]
            show perceive_periodic_bonds
              { s with bonds := s.bonds.map (perceiveBond s Ainv) } = _
            unfold perceive_periodic_bonds
            rw [if_neg hp]
            rw [show cellMatrix { s with bonds := s.bonds.map (perceiveBond s Ainv) } =
              cellMatrix s from rfl, hc]
            show (lattice_inverse A).bind _ = _
            rw [hi]
            show Except.ok _ = _
            congr 1
            show USM.mk _ _ _ = USM.mk _ _ _
            congr 1
            rw [List.map_map]
            exact List.map_congr_left fun b hb => rfl

end USMCore
